import Mathlib

/-! # Verification of the mappificator core

Shallow embedding of `src/mappificator/parsers/abstract_parser.py` and
`src/mappificator/mapping/official_mapping.py`.

Python strings are embedded as `List Char`; the scanner cursor is a `Nat`
index into the (immutable) text; Python dicts are association lists with
replace-on-existing-key insertion (`insertD`) and first-match lookup
(`lookupD`); code paths that raise an exception are modelled by `Option`
(`none` is the raised error).
-/

namespace Mapp

abbrev LC : Type := List Char

/-- String literal to character list, for readable concrete inputs. -/
def lc (s : String) : LC := s.toList

/-- First-match association-list lookup: `d[k]` / `k in d` of a Python dict
whose keys are unique. -/
def lookupD {α β : Type} [DecidableEq α] (k : α) : List (α × β) → Option β
  | [] => none
  | (a, b) :: t => if a = k then some b else lookupD k t

/-- Python dict assignment `d[k] = v`: replaces the value at an existing key
in place, otherwise appends the new pair (insertion order preserved). -/
def insertD {α β : Type} [DecidableEq α] (l : List (α × β)) (k : α) (v : β) :
    List (α × β) :=
  match l with
  | [] => [(k, v)]
  | (a, b) :: t => if a = k then (k, v) :: t else (a, b) :: insertD t k v

/-! ## Scanner (`AbstractParser`, abstract_parser.py lines 7-99)

Every scanner operation reads only `text[pointer:]`, so each is a pure
function of the text `t` and the cursor `p`, returning its result together
with the new cursor. -/

/-- Class constant `IDENTIFIER_CHARS` (abstract_parser.py line 8). -/
def IDENTIFIER_CHARS : LC :=
  lc ("ABCDEFGHIJKLMNOPQRSTUVWXYZabcdefghijklmnopqrstuvwxyz0123456789/-_$;()[]<>.,")

/-- Class constant `NUMERIC_CHARS` (abstract_parser.py line 9). -/
def NUMERIC_CHARS : LC := lc ("0123456789")

/-- Class constant `FIELD_DESCRIPTOR_NAMES` (abstract_parser.py lines 11-21). -/
def FIELD_DESCRIPTOR_NAMES : List (LC × LC) :=
  [(lc ("byte"), lc ("B")), (lc ("char"), lc ("C")), (lc ("double"), lc ("D")),
   (lc ("float"), lc ("F")), (lc ("int"), lc ("I")), (lc ("long"), lc ("J")),
   (lc ("short"), lc ("S")), (lc ("boolean"), lc ("Z")), (lc ("void"), lc ("V"))]

/-- Class constant `FIELD_DESCRIPTOR_NAMES_INVERSE` (abstract_parser.py line 22). -/
def FIELD_DESCRIPTOR_NAMES_INVERSE : List (LC × LC) :=
  FIELD_DESCRIPTOR_NAMES.map (fun e => (e.2, e.1))

/-- `AbstractParser.eof` (line 28): `pointer >= len(text)`. -/
def eof (t : LC) (p : Nat) : Bool := t.length ≤ p

/-- `AbstractParser.next` (line 31): `text[pointer]`; `none` models the
IndexError raised when the cursor is out of range. -/
def next (t : LC) (p : Nat) : Option Char := t.get? p

/-- `AbstractParser.try_scan` (lines 48-56): returns whether `expected`
matches at the cursor, and the new cursor. -/
def try_scan (expected t : LC) (p : Nat) : Bool × Nat :=
  if t.length < p + expected.length then (false, p)
  else if (t.drop p).take expected.length = expected then
    (true, p + expected.length)
  else (false, p)

/-- `AbstractParser.scan` (lines 44-46): like `try_scan` but an error
(`none`, the raised RuntimeError) on mismatch. -/
def scan (expected t : LC) (p : Nat) : Option Nat :=
  match try_scan expected t p with
  | (true, q) => some q
  | (false, _) => none

/-- Loop body of `AbstractParser.scan_until` (lines 34-42) over the text
suffix at the cursor; returns the scanned identifier and the number of
characters consumed. Each loop iteration consumes exactly one character or
stops, so the loop is structural recursion on the suffix. The inline
`try_scan` of the delimiter `d` is `(c :: rest).take d.length = d`,
equivalent to the bounds check plus slice comparison of lines 50-52. -/
def scanUntilAux (d : LC) : LC → LC × Nat
  | [] => ([], 0)
  | c :: rest =>
    if (c :: rest).take d.length = d then (d, d.length)
    else
      let pr := scanUntilAux d rest
      (c :: pr.1, pr.2 + 1)

/-- `AbstractParser.scan_until` (lines 34-42). -/
def scan_until (d t : LC) (p : Nat) : LC × Nat :=
  let pr := scanUntilAux d (t.drop p)
  (pr.1, p + pr.2)

/-- Loop of `AbstractParser.scan_identifier` (lines 58-68) over the text
suffix: `some acc` models the `return identifier` taken at the first
character outside `chars`; `none` models the fall-through when the loop
runs out of input, where the Python function returns `None`. -/
def scanIdentifierAux (chars : LC) : LC → Option LC
  | [] => none
  | c :: rest =>
    if c ∈ chars then (scanIdentifierAux chars rest).map (fun s => c :: s)
    else some []

/-- `AbstractParser.scan_identifier` (lines 58-68): result (`none` is the
Python `None` fall-through) plus the new cursor. -/
def scan_identifier (chars t : LC) (p : Nat) : Option LC × Nat :=
  match scanIdentifierAux chars (t.drop p) with
  | none => (none, max p t.length)
  | some s => (some s, p + s.length)

/-! ## Type descriptor codec (abstract_parser.py lines 101-131) -/

/-- Array-suffix stripping loop of `convert_type_to_descriptor` (lines
104-107), phrased on the reversed name so that the Python condition
`len(name) > 2 and name[-2:] == loop-brackets` is the head pattern
`close :: open :: c :: rest`. Returns the bracket count and reversed base. -/
def stripArrRev : LC → Nat × LC
  | a :: b :: c :: rest =>
    if a = (']') ∧ b = ('[') then
      let pr := stripArrRev (c :: rest)
      (pr.1 + 1, pr.2)
    else (0, a :: b :: c :: rest)
  | l => (0, l)

/-- The remap application `if name in remap: name = remap[name]`
(lines 113-114 and 127-128). -/
def applyRemap (remap : List (LC × LC)) (n : LC) : LC :=
  match lookupD n remap with
  | some m => m
  | none => n

/-- `AbstractParser.convert_type_to_descriptor` (lines 101-116). -/
def convert_type_to_descriptor (name : LC) (remap : List (LC × LC)) : LC :=
  let pr := stripArrRev name.reverse
  let base := pr.2.reverse
  List.replicate pr.1 ('[') ++
    (match lookupD base FIELD_DESCRIPTOR_NAMES with
     | some code => code
     | none => ('L') :: (applyRemap remap base ++ [(';')]))

/-- Leading-bracket stripping loop of `convert_descriptor_to_type`
(lines 121-122). -/
def dropBrackets : LC → LC
  | [] => []
  | c :: rest => if c = ('[') then dropBrackets rest else c :: rest

/-- `AbstractParser.convert_descriptor_to_type` (lines 118-131); `none`
models the raised ValueError. -/
def convert_descriptor_to_type (desc : LC) (remap : List (LC × LC)) :
    Option LC :=
  let name := dropBrackets desc
  match lookupD name FIELD_DESCRIPTOR_NAMES_INVERSE with
  | some kw => some kw
  | none =>
    if name.head? = some ('L') ∧ name.getLast? = some (';') then
      some (applyRemap remap ((name.drop 1).dropLast))
    else none

/-! ## Official mapping parser (official_mapping.py)

`official_mapping.py` uses `Parser`, whose scanner operations, constants
and codec are those of `AbstractParser` above, and a `SourceMap` result
record. -/

/-- Modelled from the spec: `SourceMap` lives in
`mappificator/util/source_map.py`, which is not under `src/`; the spec
describes it as three mappings, `classes` from obfuscated class name to
readable class name, `fields` from (obfuscated class, obfuscated field) to
readable field name, and `methods` from (obfuscated class, obfuscated
method, JVM method descriptor) to readable method name. -/
structure SourceMap where
  classes : List (LC × LC)
  fields : List ((LC × LC) × LC)
  methods : List ((LC × LC × LC) × LC)
deriving DecidableEq

/-- Staged method records (`temp_methods`, official_mapping.py line 28):
key (obfuscated class, obfuscated method, readable return type, readable
parameter types), value readable method name. -/
abbrev Temp : Type := List ((LC × LC × LC × List LC) × LC)

abbrev Fields : Type := List ((LC × LC) × LC)

abbrev Methods : Type := List ((LC × LC × LC) × LC)

/-- Python `s.replace` of the dot by the slash separator, applied to every
scanned identifier in `parse_official`. -/
def replaceDots (l : LC) : LC :=
  l.map (fun c => if c = ('.') then ('/') else c)

/-- Python `s.split(sep)` for a one-character separator: splits at every
occurrence, the empty string yields one empty piece. -/
def splitChar (sep : Char) : LC → List LC
  | [] => [[]]
  | c :: rest =>
    if c = sep then [] :: splitChar sep rest
    else
      match splitChar sep rest with
      | [] => [[c]]
      | s :: ss => (c :: s) :: ss

/-- Comment-skipping loop of `parse_official` (official_mapping.py lines
31-32): while a hash sign matches, consume through the newline. Fueled:
every iteration consumes at least the hash character, so fuel
`t.length + 1` never runs out (`none` = fuel exhausted). -/
def commentLoop (t : LC) : Nat → Nat → Option Nat
  | 0, _ => none
  | fuel + 1, p =>
    match try_scan (lc ("#")) t p with
    | (false, _) => some p
    | (true, p1) => commentLoop t fuel (scan_until (lc ("\n")) t p1).2

/-- One member line of `parse_official` (official_mapping.py lines 45-72),
entered after the four-space indent was consumed; `nc` is the current
obfuscated class name. `none` models every raising path: `next` at end of
input (IndexError), `scan_identifier` returning `None` (AttributeError on
the `replace` call), a failed `scan`, and the two-element unpacking of
`split` on the opening parenthesis (ValueError). -/
def parseMember (t nc : LC) (p : Nat) (temp : Temp) (fields : Fields) :
    Option (Nat × Temp × Fields) :=
  match next t p with
  | none => none
  | some c =>
    let p := if c ∈ NUMERIC_CHARS then
        (scan_until (lc (":")) t (scan_until (lc (":")) t p).2).2
      else p
    match scan_identifier IDENTIFIER_CHARS t p with
    | (none, _) => none
    | (some mt, p) =>
      let member_type := replaceDots mt
      match scan (lc (" ")) t p with
      | none => none
      | some p =>
        match scan_identifier IDENTIFIER_CHARS t p with
        | (none, _) => none
        | (some mm, p) =>
          let mojmap_member := replaceDots mm
          match scan (lc (" -> ")) t p with
          | none => none
          | some p =>
            match scan_identifier IDENTIFIER_CHARS t p with
            | (none, _) => none
            | (some nm, p) =>
              let notch_member := replaceDots nm
              match scan (lc ("\n")) t p with
              | none => none
              | some p =>
                if mojmap_member.getLast? = some (')') then
                  match splitChar ('(') mojmap_member with
                  | [mojmap_method, ps] =>
                    let ps0 := splitChar (',') ps.dropLast
                    let params := if ps0 = [[]] then [] else ps0
                    if notch_member = lc ("<clinit>") then
                      some (p, temp, fields)
                    else
                      some (p,
                        insertD temp (nc, notch_member, member_type, params)
                          mojmap_method,
                        fields)
                  | _ => none
                else
                  some (p, temp, insertD fields (nc, notch_member) mojmap_member)

/-- Member loop of `parse_official` (official_mapping.py line 44): while
the four-space indent matches, parse one member. Fueled; every iteration
consumes at least the indent. -/
def memberLoop (t nc : LC) : Nat → Nat → Temp → Fields →
    Option (Nat × Temp × Fields)
  | 0, _, _, _ => none
  | fuel + 1, p, temp, fields =>
    match try_scan (lc ("    ")) t p with
    | (false, _) => some (p, temp, fields)
    | (true, p1) =>
      match parseMember t nc p1 temp fields with
      | none => none
      | some (p2, temp2, fields2) => memberLoop t nc fuel p2 temp2 fields2

/-- Class loop of `parse_official` (official_mapping.py lines 34-72): while
not at end of input, parse one class header and its member block. Fueled;
every iteration consumes at least the arrow and terminator literals. -/
def classLoop (t : LC) : Nat → Nat → List (LC × LC) → Temp → Fields →
    Option (List (LC × LC) × Temp × Fields)
  | 0, _, _, _, _ => none
  | fuel + 1, p, classes, temp, fields =>
    if eof t p then some (classes, temp, fields)
    else
      match scan_identifier IDENTIFIER_CHARS t p with
      | (none, _) => none
      | (some mc, p) =>
        let mojmap_class := replaceDots mc
        match scan (lc (" -> ")) t p with
        | none => none
        | some p =>
          match scan_identifier IDENTIFIER_CHARS t p with
          | (none, _) => none
          | (some ncr, p) =>
            let notch_class := replaceDots ncr
            match scan (lc (":\n")) t p with
            | none => none
            | some p =>
              match memberLoop t notch_class (t.length + 1) p temp fields with
              | none => none
              | some (p, temp, fields) =>
                classLoop t fuel p (insertD classes notch_class mojmap_class)
                  temp fields

/-- Inversion of the class table (official_mapping.py line 74):
`dict((mojmap, notch) for notch, mojmap in classes.items())`. -/
def invertClasses (classes : List (LC × LC)) : List (LC × LC) :=
  classes.foldl (fun acc e => insertD acc e.2 e.1) []

/-- Descriptor-resolution pass of `parse_official` (official_mapping.py
lines 76-83): for every staged method, build the JVM descriptor from the
readable return and parameter types and insert into `methods`. -/
def resolveMethods (m2n : List (LC × LC)) (temp : Temp) : Methods :=
  temp.foldl
    (fun acc e =>
      let rdesc := convert_type_to_descriptor e.1.2.2.1 m2n
      let pdescs := (e.1.2.2.2).map (fun q => convert_type_to_descriptor q m2n)
      let mdesc := ('(') :: (pdescs.flatten ++ (')') :: rdesc)
      insertD acc (e.1.1, e.1.2.1, mdesc) e.2)
    []

/-- `parse_official` (official_mapping.py lines 19-85); `none` models every
uncaught exception. -/
def parse_official (t : LC) : Option SourceMap :=
  match commentLoop t (t.length + 1) 0 with
  | none => none
  | some p =>
    match classLoop t (t.length + 1) p [] [] [] with
    | none => none
    | some (classes, temp, fields) =>
      some ⟨classes, fields, resolveMethods (invertClasses classes) temp⟩

/-! ## Cross-document validation (official_mapping.py lines 88-95) -/

/-- Modelled from the spec: the key-set comparison used by
`validate_official` (`SourceMap.keys`, `compare_to`, `right_only`,
`is_empty`) lives in `mappificator/util/source_map.py`, which is not under
`src/`. The spec describes the combined key set as classes, fields and
methods keys, each identity-qualified by its own category. -/
inductive SMKey : Type
  | cls : LC → SMKey
  | fld : LC × LC → SMKey
  | mth : LC × LC × LC → SMKey
deriving DecidableEq

/-- Modelled from the spec: the combined, category-qualified key set of a
`SourceMap`. -/
def SourceMap.keySet (sm : SourceMap) : List SMKey :=
  sm.classes.map (fun e => SMKey.cls e.1) ++
    sm.fields.map (fun e => SMKey.fld e.1) ++
    sm.methods.map (fun e => SMKey.mth e.1)

/-- Modelled from the spec: `client.keys().compare_to(server.keys())
.right_only` — the keys present in the right (server) key set but absent
from the left (client) key set. -/
def rightOnly (left right : List SMKey) : List SMKey :=
  right.filter (fun k => ¬ left.contains k)

/-- `validate_official` (official_mapping.py lines 88-95): the assertion
that the server key set has nothing outside the client key set; `true`
models the assertion passing, `false` the fatal AssertionError. -/
def validate_official (client server : SourceMap) : Bool :=
  (rightOnly client.keySet server.keySet).isEmpty

/-! ## Concrete inputs used by the claims -/

/-- The three-line example document of the spec. -/
def doc2 : LC :=
  lc ("a.Foo -> c:\n    int field -> f\n    void method() -> m\n")

/-- The `SourceMap` that `parse_official` produces on `doc2`. -/
def smC : SourceMap :=
  ⟨[(lc ("c"), lc ("a/Foo"))],
   [((lc ("c"), lc ("f")), lc ("field"))],
   [((lc ("c"), lc ("m"), lc ("()V")), lc ("method"))]⟩

/-! ## Claims -/

/-- C2 (counterexample): on the example document, `parse_official` stores
the readable class name with the dot separator replaced by the slash, so
its classes mapping is the singleton with value `a/Foo`, which differs from
the claimed value `a.Foo`; the claimed entry is not in the mapping. -/
theorem c2_counterexample :
    (parse_official doc2).map SourceMap.classes =
        some [(lc ("c"), lc ("a/Foo"))] ∧
      ¬ (lc ("c"), lc ("a.Foo")) ∈ [(lc ("c"), lc ("a/Foo"))] := by
  decide

/-- C2 (amended): `parse_official` on the example document returns exactly
the `SourceMap` with classes mapping c to a/Foo, fields mapping (c, f) to
field, and methods mapping (c, m, the empty-parameter void descriptor) to
method. -/
theorem c2_amended : parse_official doc2 = some smC := by decide

/-- C5 (code evaluated at the failing input): when the scanned run of
identifier characters reaches the end of the input, `scan_identifier`
falls out of its loop without executing a return statement, so it yields
the Python `None` (modelled `none`) instead of the scanned string, while
still advancing the cursor to the end; when the run stops before the end
it returns the scanned string as the claim states. -/
theorem c5_scan_identifier_eof :
    scan_identifier IDENTIFIER_CHARS (lc ("abc")) 0 = (none, 3) ∧
      scan_identifier IDENTIFIER_CHARS (lc ("ab c")) 0 = (some (lc ("ab")), 2) := by
  decide

/-- The literal `e` occurs in `t` starting exactly at cursor `p`: it fits
within the text and the characters there equal it. -/
def occursAt (e t : LC) (p : Nat) : Prop :=
  p + e.length ≤ t.length ∧ (t.drop p).take e.length = e

instance (e t : LC) (p : Nat) : Decidable (occursAt e t p) :=
  inferInstanceAs (Decidable (_ ∧ _))

/-- C9: `try_scan` advances the cursor by the length of the literal and
returns true exactly when the literal occurs at the cursor, and otherwise
returns false with the cursor unchanged (the text, the only other parser
state, is immutable). -/
theorem c9_try_scan (e t : LC) (p : Nat) :
    (occursAt e t p → try_scan e t p = (true, p + e.length)) ∧
      (¬ occursAt e t p → try_scan e t p = (false, p)) := by
  constructor
  · rintro ⟨hle, htake⟩
    unfold try_scan
    rw [if_neg (by omega), if_pos htake]
  · intro h
    unfold try_scan
    by_cases h1 : t.length < p + e.length
    · rw [if_pos h1]
    · rw [if_neg h1]
      have h2 : ¬ (t.drop p).take e.length = e :=
        fun hc => h ⟨by omega, hc⟩
      rw [if_neg h2]

/-- C9 witness: the theorem applied at a concrete text, cursor and literal. -/
theorem c9_witness : try_scan (lc ("ab")) (lc ("abc")) 0 = (true, 2) := by
  have h := (c9_try_scan (lc ("ab")) (lc ("abc")) 0).1 (by decide)
  exact h.trans (by decide)

lemma scanUntilAux_found (d : LC) : ∀ (a b : LC),
    (∀ i < a.length, ¬ ((a ++ (d ++ b)).drop i).take d.length = d) →
    scanUntilAux d (a ++ (d ++ b)) = (a ++ d, a.length + d.length) := by
  intro a
  induction a with
  | nil =>
    intro b _
    cases hdb : d ++ b with
    | nil =>
      have hd : d = [] := by
        have := congrArg List.length hdb
        simp at this
        simpa using this.1
      simp [hdb, hd, scanUntilAux]
    | cons c rest =>
      have htake : (c :: rest).take d.length = d := by
        rw [← hdb, List.take_left]
      simp [hdb, scanUntilAux, htake]
  | cons x a' ih =>
    intro b h
    have h0 : ¬ ((x :: a') ++ (d ++ b)).take d.length = d := by
      have := h 0 (by simp)
      simpa using this
    have hrec := ih b (fun i hi => by
      have := h (i + 1) (by simpa using Nat.succ_lt_succ hi)
      simpa using this)
    simp only [List.cons_append, scanUntilAux]
    rw [if_neg (by simpa using h0)]
    simp only [List.append_eq]
    rw [hrec]
    simp [List.cons_append]
    omega

lemma scanUntilAux_notfound (d : LC) : ∀ (l : LC),
    (∀ i, ¬ (l.drop i).take d.length = d) →
    scanUntilAux d l = (l, l.length) := by
  intro l
  induction l with
  | nil => intro _; rfl
  | cons c rest ih =>
    intro h
    have h0 : ¬ (c :: rest).take d.length = d := by
      have := h 0
      simpa using this
    have hrec := ih (fun i => by
      have := h (i + 1)
      simpa using this)
    simp only [scanUntilAux]
    rw [if_neg h0, hrec]
    simp

/-- C7: `scan_until` always terminates (it is a total function of the text
and cursor); when the delimiter occurs at or after the cursor (the suffix
at the cursor splits as `a ++ d ++ b` with no earlier occurrence), it
returns everything consumed including the delimiter and leaves the cursor
just past the delimiter; when the delimiter never occurs at or after the
cursor, it returns the whole remaining text and leaves the cursor at the
end of input. -/
theorem c7_scan_until (d t : LC) (p : Nat) :
    (∀ a b, t.drop p = a ++ (d ++ b) →
      (∀ i < a.length, ¬ ((t.drop p).drop i).take d.length = d) →
      scan_until d t p = (a ++ d, p + (a.length + d.length))) ∧
      (p ≤ t.length → (∀ i, ¬ ((t.drop p).drop i).take d.length = d) →
        scan_until d t p = (t.drop p, t.length)) := by
  constructor
  · intro a b hsplit hocc
    unfold scan_until
    rw [hsplit, scanUntilAux_found d a b (fun i hi => by
      have := hocc i hi
      rwa [hsplit] at this)]
  · intro hp hocc
    unfold scan_until
    rw [scanUntilAux_notfound d (t.drop p) hocc]
    simp
    omega

/-- C7 witness: the theorem applied with a concrete delimiter occurring in
the text, and with a concrete delimiter that never occurs. -/
theorem c7_witness :
    scan_until (lc ("->")) (lc ("ab->cd")) 0 = (lc ("ab->"), 4) ∧
      scan_until (lc ("->")) (lc ("xy")) 0 = (lc ("xy"), 2) := by
  constructor
  · have h := (c7_scan_until (lc ("->")) (lc ("ab->cd")) 0).1
      (lc ("ab")) (lc ("cd")) (by decide) (by decide)
    exact h.trans (by decide)
  · have hocc : ∀ i, ¬ ((((lc ("xy"))).drop 0).drop i).take
        ((lc ("->"))).length = lc ("->") := by
      intro i
      match i with
      | 0 => decide
      | 1 => decide
      | n + 2 =>
        have hd : (((lc ("xy"))).drop 0).drop (n + 2) = [] :=
          List.drop_eq_nil_of_le (by simp [lc])
        rw [hd]
        decide
    have h := (c7_scan_until (lc ("->")) (lc ("xy")) 0).2 (by decide) hocc
    exact h.trans (by decide)

/-- C10: `convert_type_to_descriptor` is a total function (its model needs
no error case: no path of lines 101-116 raises); whenever the base left by
the bracket-stripping loop is not one of the nine primitive keywords the
result wraps the remapped base as an object descriptor between the `L` and
the semicolon; and the two-character name of one bracket pair is not
stripped (the loop requires more than two remaining characters), so it is
itself encoded as an object descriptor. -/
theorem c10_type_to_descriptor (name : LC) (remap : List (LC × LC)) :
    (∀ k base, stripArrRev name.reverse = (k, base) →
      lookupD base.reverse FIELD_DESCRIPTOR_NAMES = none →
      convert_type_to_descriptor name remap =
        List.replicate k ('[') ++
          ('L') :: (applyRemap remap base.reverse ++ [(';')])) ∧
      convert_type_to_descriptor (lc ("[]")) remap =
        ('L') :: (applyRemap remap (lc ("[]")) ++ [(';')]) ∧
      convert_type_to_descriptor (lc ("[]")) [] = lc ("L[];") := by
  refine ⟨?_, ?_, by decide⟩
  · intro k base hstrip hlook
    simp [convert_type_to_descriptor, hstrip, hlook]
  · simp [convert_type_to_descriptor,
      (by decide : stripArrRev (List.reverse (lc ("[]"))) = (0, [(']'), ('[')])),
      (by decide : List.reverse [(']'), ('[')] = lc ("[]")),
      (by decide : lookupD (lc ("[]")) FIELD_DESCRIPTOR_NAMES = none)]

/-- C10 witness: the theorem applied at a concrete array-of-object name. -/
theorem c10_witness :
    convert_type_to_descriptor (lc ("a/B[]")) [] = lc ("[La/B;") := by
  have h := (c10_type_to_descriptor (lc ("a/B[]")) []).1 1 (lc ("B/a"))
    (by decide) (by decide)
  exact h.trans (by decide)

lemma lookupD_eq_none {α β : Type} [DecidableEq α] (k : α) :
    ∀ (l : List (α × β)), (∀ q ∈ l, ¬ q.1 = k) → lookupD k l = none := by
  intro l
  induction l with
  | nil => intro _; rfl
  | cons a t ih =>
    intro h
    obtain ⟨a1, a2⟩ := a
    simp only [lookupD]
    rw [if_neg (h (a1, a2) (List.mem_cons_self _ _))]
    exact ih (fun q hq => h q (List.mem_cons_of_mem _ hq))

lemma lookupD_inverse_long (n : LC) (h : n.length ≠ 1) :
    lookupD n FIELD_DESCRIPTOR_NAMES_INVERSE = none := by
  apply lookupD_eq_none
  intro q hq hc
  apply h
  rw [← hc]
  have hall : ∀ q ∈ FIELD_DESCRIPTOR_NAMES_INVERSE, (q.1 : LC).length = 1 := by
    decide
  exact hall q hq

/-- C8: `convert_descriptor_to_type` errors exactly when, after stripping
every leading opening bracket, the remainder is neither one of the nine
primitive codes (a key of the inverse table) nor a string starting with
`L` and ending with the semicolon; and on a remainder of object-wrapper
shape it returns the wrapped name with the remap applied. -/
theorem c8_descriptor_to_type (desc : LC) (remap : List (LC × LC)) :
    (convert_descriptor_to_type desc remap = none ↔
      (lookupD (dropBrackets desc) FIELD_DESCRIPTOR_NAMES_INVERSE = none ∧
        ¬ ((dropBrackets desc).head? = some ('L') ∧
          (dropBrackets desc).getLast? = some (';')))) ∧
      (∀ inner, dropBrackets desc = ('L') :: (inner ++ [(';')]) →
        convert_descriptor_to_type desc remap = some (applyRemap remap inner)) := by
  constructor
  · cases hl : lookupD (dropBrackets desc) FIELD_DESCRIPTOR_NAMES_INVERSE with
    | some kw => simp [convert_descriptor_to_type, hl]
    | none =>
      by_cases hc : (dropBrackets desc).head? = some ('L') ∧
          (dropBrackets desc).getLast? = some (';')
      · simp [convert_descriptor_to_type, hl, hc]
      · simp [convert_descriptor_to_type, hl, hc]
  · intro inner hin
    have hlen : (dropBrackets desc).length ≠ 1 := by
      rw [hin]
      simp
    have hl := lookupD_inverse_long _ hlen
    have hhead : (dropBrackets desc).head? = some ('L') := by
      rw [hin]
      rfl
    have hlast : (dropBrackets desc).getLast? = some (';') := by
      rw [hin,
        show ('L') :: (inner ++ [(';')]) = (('L') :: inner) ++ [(';')] by simp]
      exact List.getLast?_concat _
    have hl2 : lookupD (('L') :: (inner ++ [(';')]))
        FIELD_DESCRIPTOR_NAMES_INVERSE = none := hin ▸ hl
    have hlast2 : (('L') :: (inner ++ [(';')])).getLast? = some (';') :=
      hin ▸ hlast
    simp [convert_descriptor_to_type, hin, hl2, hlast2, List.dropLast_concat]

/-- C8 witness: the theorem applied at a concrete wrapped array descriptor
with a remap that hits the wrapped name. -/
theorem c8_witness :
    convert_descriptor_to_type (lc ("[La/b;")) [((lc ("a/b")), (lc ("x")))] =
      some (lc ("x")) := by
  have h := (c8_descriptor_to_type (lc ("[La/b;"))
      [((lc ("a/b")), (lc ("x")))]).2 (lc ("a/b")) (by decide)
  exact h.trans (by decide)

/-- A readable array type name: the base name followed by `k` trailing
bracket pairs. -/
def mkArr : Nat → LC
  | 0 => []
  | k + 1 => mkArr k ++ [('['), (']')]

lemma mkArr_reverse (k : Nat) :
    (mkArr (k + 1)).reverse = (']') :: ('[') :: (mkArr k).reverse := by
  simp [mkArr]

lemma stripArrRev_stop (base : LC)
    (h : ¬ (2 < base.length ∧ base.reverse.take 2 = [(']'), ('[')])) :
    stripArrRev base.reverse = (0, base.reverse) := by
  rcases hbr : base.reverse with _ | ⟨a, _ | ⟨b, _ | ⟨c, rest⟩⟩⟩
  · rfl
  · rfl
  · rfl
  · have hcond : ¬ (a = (']') ∧ b = ('[')) := by
      rintro ⟨ha, hb⟩
      apply h
      constructor
      · have h1 := congrArg List.length hbr
        rw [List.length_reverse] at h1
        simp at h1
        omega
      · rw [hbr, ha, hb]
        rfl
    simp only [stripArrRev]
    rw [if_neg hcond]

lemma stripArrRev_mkArr (k : Nat) (r : LC) (hr : r ≠ [])
    (hstop : stripArrRev r = (0, r)) :
    stripArrRev ((mkArr k).reverse ++ r) = (k, r) := by
  induction k with
  | zero => simpa [mkArr] using hstop
  | succ n ih =>
    rw [mkArr_reverse]
    obtain ⟨c, rest, hx⟩ := List.exists_cons_of_ne_nil
      (show (mkArr n).reverse ++ r ≠ [] by simp [hr])
    rw [List.cons_append, List.cons_append, hx]
    simp only [stripArrRev]
    rw [if_pos (by decide), ← hx, ih]

lemma dropBrackets_replicate (k : Nat) (l : LC) :
    dropBrackets (List.replicate k ('[') ++ l) = dropBrackets l := by
  induction k with
  | zero => simp
  | succ n ih => simp [List.replicate_succ, dropBrackets, ih]

lemma cdtt_strip (k : Nat) (l : LC) (remap : List (LC × LC)) :
    convert_descriptor_to_type (List.replicate k ('[') ++ l) remap =
      convert_descriptor_to_type l remap := by
  simp [convert_descriptor_to_type, dropBrackets_replicate]

lemma cdtt_object (base : LC) (remap : List (LC × LC)) :
    convert_descriptor_to_type (('L') :: (base ++ [(';')])) remap =
      some (applyRemap remap base) := by
  have hlen : (('L') :: (base ++ [(';')])).length ≠ 1 := by simp
  have hl := lookupD_inverse_long _ hlen
  have hlast : (('L') :: (base ++ [(';')])).getLast? = some (';') := by
    rw [show ('L') :: (base ++ [(';')]) = (('L') :: base) ++ [(';')] by simp]
    exact List.getLast?_concat _
  have hdb : dropBrackets (('L') :: (base ++ [(';')])) =
      ('L') :: (base ++ [(';')]) := by
    simp [dropBrackets, (by decide : ¬ ('L') = ('['))]
  rw [show convert_descriptor_to_type (('L') :: (base ++ [(';')])) remap =
      (match lookupD (dropBrackets (('L') :: (base ++ [(';')])))
          FIELD_DESCRIPTOR_NAMES_INVERSE with
        | some kw => some kw
        | none =>
          if (dropBrackets (('L') :: (base ++ [(';')]))).head? = some ('L') ∧
              (dropBrackets (('L') :: (base ++ [(';')]))).getLast? = some (';')
            then some (applyRemap remap
              (((dropBrackets (('L') :: (base ++ [(';')]))).drop 1).dropLast))
          else none) from rfl]
  rw [hdb, hl]
  rw [if_pos ⟨rfl, hlast⟩]
  simp [List.dropLast_concat]

lemma lookupD_mem {α β : Type} [DecidableEq α] {k : α} {c : β} :
    ∀ {l : List (α × β)}, lookupD k l = some c → (k, c) ∈ l := by
  intro l
  induction l with
  | nil => intro h; cases h
  | cons a t ih =>
    intro h
    obtain ⟨a1, a2⟩ := a
    simp only [lookupD] at h
    by_cases hc : a1 = k
    · rw [if_pos hc] at h
      injection h with h2
      subst hc
      subst h2
      exact List.mem_cons_self _ _
    · rw [if_neg hc] at h
      exact List.mem_cons_of_mem _ (ih h)

/-- C1 (amended): for a name built from a nonempty base (itself not ending
in a strippable bracket pair) and `k` trailing bracket pairs, encoding with
the identity remap and then decoding with the identity remap returns the
base name: the decoder drops the array suffixes, so the original name is
reproduced exactly when it has no trailing bracket pair (`k = 0`). -/
theorem c1_roundtrip (base : LC) (k : Nat) (h1 : base ≠ [])
    (h2 : ¬ (2 < base.length ∧ base.reverse.take 2 = [(']'), ('[')])) :
    convert_descriptor_to_type
        (convert_type_to_descriptor (base ++ mkArr k) []) [] = some base := by
  have hrev : (base ++ mkArr k).reverse = (mkArr k).reverse ++ base.reverse :=
    List.reverse_append _ _
  have hrne : base.reverse ≠ [] := by simpa using h1
  have hstrip := stripArrRev_mkArr k base.reverse hrne (stripArrRev_stop base h2)
  have ha : ∀ n : LC, applyRemap [] n = n := fun _ => rfl
  cases hp : lookupD base FIELD_DESCRIPTOR_NAMES with
  | some code =>
    have hcttd : convert_type_to_descriptor (base ++ mkArr k) [] =
        List.replicate k ('[') ++ code := by
      simp [convert_type_to_descriptor, hstrip, hp]
    rw [hcttd, cdtt_strip]
    have hprim : ∀ q ∈ FIELD_DESCRIPTOR_NAMES,
        convert_descriptor_to_type q.2 [] = some q.1 := by decide
    exact hprim (base, code) (lookupD_mem hp)
  | none =>
    have hcttd : convert_type_to_descriptor (base ++ mkArr k) [] =
        List.replicate k ('[') ++ (('L') :: (base ++ [(';')])) := by
      simp [convert_type_to_descriptor, hstrip, hp, ha]
    rw [hcttd, cdtt_strip, cdtt_object]
    rw [ha]

/-- C1 (counterexample): the claimed round trip fails on the readable array
name int-with-one-bracket-pair: the decoder strips the array depth, so the
round trip returns the bare base name, which differs from the original
(and not merely in its separators). -/
theorem c1_counterexample :
    convert_descriptor_to_type
        (convert_type_to_descriptor (lc ("int[]")) []) [] =
          some (lc ("int")) ∧
      ¬ lc ("int") = lc ("int[]") := by decide

/-- C1 witness: the amended theorem applied at a concrete primitive array
name. -/
theorem c1_witness :
    convert_descriptor_to_type
        (convert_type_to_descriptor (lc ("int") ++ mkArr 1) []) [] =
      some (lc ("int")) :=
  c1_roundtrip (lc ("int")) 1 (by decide) (by decide)

/-- C4: `validate_official` fails (the assertion raises, modelled `false`)
exactly when the combined key set of the server map has a key absent from
the combined key set of the client map, and succeeds exactly when the
server key set is contained in the client key set. The validation computes
only with the two key sets, so neither `SourceMap` is modified. -/
theorem c4_validate (client server : SourceMap) :
    (validate_official client server = false ↔
      ∃ k ∈ SourceMap.keySet server, ¬ k ∈ SourceMap.keySet client) ∧
      (validate_official client server = true ↔
        ∀ k ∈ SourceMap.keySet server, k ∈ SourceMap.keySet client) := by
  have htrue : validate_official client server = true ↔
      ∀ k ∈ SourceMap.keySet server, k ∈ SourceMap.keySet client := by
    simp [validate_official, rightOnly, List.isEmpty_iff,
      List.filter_eq_nil_iff]
  have hfalse : validate_official client server = false ↔
      ¬ ∀ k ∈ SourceMap.keySet server, k ∈ SourceMap.keySet client := by
    rw [Bool.eq_false_iff, ne_eq, htrue]
  refine ⟨?_, htrue⟩
  rw [hfalse]
  push_neg
  rfl

lemma mem_insertD {α β : Type} [DecidableEq α] {e : α × β} :
    ∀ {l : List (α × β)} {k : α} {v : β},
      e ∈ insertD l k v → e ∈ l ∨ e = (k, v) := by
  intro l
  induction l with
  | nil =>
    intro k v h
    simp [insertD] at h
    exact Or.inr h
  | cons a t ih =>
    intro k v h
    obtain ⟨a1, a2⟩ := a
    simp only [insertD] at h
    by_cases hc : a1 = k
    · rw [if_pos hc] at h
      rcases List.mem_cons.mp h with h1 | h1
      · exact Or.inr h1
      · exact Or.inl (List.mem_cons_of_mem _ h1)
    · rw [if_neg hc] at h
      rcases List.mem_cons.mp h with h1 | h1
      · exact Or.inl (List.mem_cons.mpr (Or.inl h1))
      · rcases ih h1 with h2 | h2
        · exact Or.inl (List.mem_cons_of_mem _ h2)
        · exact Or.inr h2

lemma parseMember_inv {t nc : LC} {p : Nat} {temp : Temp} {fields : Fields}
    {p2 : Nat} {temp2 : Temp} {fields2 : Fields}
    (h : parseMember t nc p temp fields = some (p2, temp2, fields2)) :
    (∀ e ∈ temp2, e ∈ temp ∨ (e.1.1 = nc ∧ ¬ e.1.2.1 = lc ("<clinit>"))) ∧
      (∀ e ∈ fields2, e ∈ fields ∨ e.1.1 = nc) := by
  simp only [parseMember] at h
  repeat' split at h
  all_goals simp_all
  all_goals obtain ⟨hA, hB, hC⟩ := h
  all_goals subst hB
  all_goals subst hC
  all_goals
    first
    | (intro a a1 a2 b b1 hmem
       rcases mem_insertD hmem with hh | hh
       · exact Or.inl hh
       · right
         simp only [Prod.mk.injEq] at hh
         obtain ⟨⟨e1, e2, e3, e4⟩, e5⟩ := hh
         subst e2
         exact ⟨e1, by assumption⟩)
    | (intro a b b1 hmem
       rcases mem_insertD hmem with hh | hh
       · exact Or.inl hh
       · right
         simp only [Prod.mk.injEq] at hh
         exact hh.1.1)

lemma memberLoop_inv {t nc : LC} :
    ∀ {fuel p : Nat} {temp : Temp} {fields : Fields} {p2 : Nat}
      {temp2 : Temp} {fields2 : Fields},
      memberLoop t nc fuel p temp fields = some (p2, temp2, fields2) →
      (∀ e ∈ temp2, e ∈ temp ∨ (e.1.1 = nc ∧ ¬ e.1.2.1 = lc ("<clinit>"))) ∧
        (∀ e ∈ fields2, e ∈ fields ∨ e.1.1 = nc) := by
  intro fuel
  induction fuel with
  | zero =>
    intro p temp fields p2 temp2 fields2 h
    exact absurd h (by simp [memberLoop])
  | succ n ih =>
    intro p temp fields p2 temp2 fields2 h
    simp only [memberLoop] at h
    split at h
    · simp only [Option.some.injEq, Prod.mk.injEq] at h
      obtain ⟨_, h2, h3⟩ := h
      subst h2
      subst h3
      exact ⟨fun e he => Or.inl he, fun e he => Or.inl he⟩
    · split at h
      · exact absurd h (by simp)
      · rename_i p1 hts pm p3 temp3 fields3 hpm
        obtain ⟨hT1, hF1⟩ := parseMember_inv hpm
        obtain ⟨hT2, hF2⟩ := ih h
        constructor
        · intro e he
          rcases hT2 e he with h1 | h1
          · exact hT1 e h1
          · exact Or.inr h1
        · intro e he
          rcases hF2 e he with h1 | h1
          · exact hF1 e h1
          · exact Or.inr h1

lemma insertD_fst_mem {α β : Type} [DecidableEq α] (x : α) :
    ∀ (l : List (α × β)) (k : α) (v : β),
      x ∈ (insertD l k v).map Prod.fst ↔ x ∈ l.map Prod.fst ∨ x = k := by
  intro l
  induction l with
  | nil =>
    intro k v
    simp [insertD]
  | cons a t ih =>
    intro k v
    obtain ⟨a1, a2⟩ := a
    simp only [insertD]
    by_cases hc : a1 = k
    · rw [if_pos hc]
      subst hc
      simp [List.map_cons]
      tauto
    · rw [if_neg hc]
      simp [List.map_cons, ih]
      tauto

lemma classLoop_inv {t : LC} :
    ∀ {fuel p : Nat} {classes : List (LC × LC)} {temp : Temp}
      {fields : Fields} {classes2 : List (LC × LC)} {temp2 : Temp}
      {fields2 : Fields},
      classLoop t fuel p classes temp fields = some (classes2, temp2, fields2) →
      (∀ a, a ∈ classes.map Prod.fst → a ∈ classes2.map Prod.fst) ∧
        (∀ e ∈ temp2, e ∈ temp ∨
          (e.1.1 ∈ classes2.map Prod.fst ∧ ¬ e.1.2.1 = lc ("<clinit>"))) ∧
        (∀ e ∈ fields2, e ∈ fields ∨ e.1.1 ∈ classes2.map Prod.fst) := by
  intro fuel
  induction fuel with
  | zero =>
    intro p classes temp fields c2 t2 f2 h
    exact absurd h (by simp [classLoop])
  | succ n ih =>
    intro p classes temp fields c2 t2 f2 h
    simp only [classLoop] at h
    split at h
    · simp only [Option.some.injEq, Prod.mk.injEq] at h
      obtain ⟨h1, h2, h3⟩ := h
      subst h1
      subst h2
      subst h3
      exact ⟨fun a ha => ha, fun e he => Or.inl he, fun e he => Or.inl he⟩
    · split at h
      · exact absurd h (by simp)
      · split at h
        · exact absurd h (by simp)
        · split at h
          · exact absurd h (by simp)
          · split at h
            · exact absurd h (by simp)
            · split at h
              · exact absurd h (by simp)
              · rename_i hml
                obtain ⟨hT1, hF1⟩ := memberLoop_inv hml
                obtain ⟨hC2, hT2, hF2⟩ := ih h
                have hmono : ∀ a, a ∈ classes.map Prod.fst →
                    a ∈ c2.map Prod.fst := by
                  intro a ha
                  apply hC2
                  rw [insertD_fst_mem]
                  exact Or.inl ha
                refine ⟨hmono, ?_, ?_⟩
                · intro e he
                  rcases hT2 e he with h1 | h1
                  · rcases hT1 e h1 with h2 | h2
                    · exact Or.inl h2
                    · refine Or.inr ⟨hC2 _ ?_, h2.2⟩
                      rw [insertD_fst_mem]
                      exact Or.inr h2.1
                  · exact Or.inr h1
                · intro e he
                  rcases hF2 e he with h1 | h1
                  · rcases hF1 e h1 with h2 | h2
                    · exact Or.inl h2
                    · refine Or.inr (hC2 _ ?_)
                      rw [insertD_fst_mem]
                      exact Or.inr h2
                  · exact Or.inr h1

lemma foldl_insertD_mem {A B C : Type} [DecidableEq B] (keyf : A → B)
    (valf : A → C) :
    ∀ (l : List A) (acc : List (B × C)) (e : B × C),
      e ∈ l.foldl (fun acc a => insertD acc (keyf a) (valf a)) acc →
      e ∈ acc ∨ ∃ a ∈ l, e.1 = keyf a := by
  intro l
  induction l with
  | nil =>
    intro acc e h
    exact Or.inl h
  | cons a t ih =>
    intro acc e h
    rcases ih _ e h with h1 | h1
    · rcases mem_insertD h1 with h2 | h2
      · exact Or.inl h2
      · exact Or.inr ⟨a, List.mem_cons_self _ _, by rw [h2]⟩
    · obtain ⟨a0, ha0, hk⟩ := h1
      exact Or.inr ⟨a0, List.mem_cons_of_mem _ ha0, hk⟩

lemma parse_official_inv (t : LC) (sm : SourceMap)
    (h : parse_official t = some sm) :
    (∀ e ∈ sm.fields, e.1.1 ∈ sm.classes.map Prod.fst) ∧
      (∀ e ∈ sm.methods,
        e.1.1 ∈ sm.classes.map Prod.fst ∧ ¬ e.1.2.1 = lc ("<clinit>")) := by
  simp only [parse_official] at h
  split at h
  · exact absurd h (by simp)
  · split at h
    · exact absurd h (by simp)
    · rename_i hcl
      obtain ⟨hC, hT, hF⟩ := classLoop_inv hcl
      simp only [Option.some.injEq] at h
      subst h
      constructor
      · intro e he
        rcases hF e he with h1 | h1
        · simp at h1
        · exact h1
      · intro e he
        rcases foldl_insertD_mem
            (fun e0 : (LC × LC × LC × List LC) × LC => (e0.1.1, e0.1.2.1,
              ('(') :: (((e0.1.2.2.2).map (fun q =>
                convert_type_to_descriptor q (invertClasses _))).flatten ++
                (')') :: convert_type_to_descriptor e0.1.2.2.1
                  (invertClasses _))))
            (fun e0 => e0.2) _ [] e he with h1 | h1
        · simp at h1
        · obtain ⟨a, ha, hk⟩ := h1
          have hk1 : e.1.1 = a.1.1 := by rw [hk]
          have hk2 : e.1.2.1 = a.1.2.1 := by rw [hk]
          rcases hT a ha with h2 | h2
          · simp at h2
          · constructor
            · rw [hk1]
              exact h2.1
            · rw [hk2]
              exact h2.2

/-- C3: on every input on which `parse_official` succeeds, the obfuscated
class component of every key of the returned fields mapping and of every
key of the returned methods mapping is a key of the returned classes
mapping. -/
theorem c3_referential (t : LC) (sm : SourceMap)
    (h : parse_official t = some sm) :
    (∀ e ∈ sm.fields, e.1.1 ∈ sm.classes.map Prod.fst) ∧
      (∀ e ∈ sm.methods, e.1.1 ∈ sm.classes.map Prod.fst) := by
  obtain ⟨h1, h2⟩ := parse_official_inv t sm h
  exact ⟨h1, fun e he => (h2 e he).1⟩

/-- C3 witness: the theorem applied to the example document. -/
theorem c3_witness :
    ((lc ("c"), lc ("f")), lc ("field")).1.1 ∈ smC.classes.map Prod.fst :=
  (c3_referential doc2 smC (by decide)).1
    ((lc ("c"), lc ("f")), lc ("field")) (by decide)

/-- C6: on every input on which `parse_official` succeeds, no key of the
returned methods mapping carries the static-initializer marker as its
obfuscated method name: a member line whose obfuscated name is that marker
never contributes an entry. -/
theorem c6_no_clinit (t : LC) (sm : SourceMap)
    (h : parse_official t = some sm) :
    ∀ e ∈ sm.methods, ¬ e.1.2.1 = lc ("<clinit>") :=
  fun e he => ((parse_official_inv t sm h).2 e he).2

/-- C6 witness: the theorem applied to the example document. -/
theorem c6_witness :
    ¬ ((lc ("c"), lc ("m"), lc ("()V")), lc ("method")).1.2.1 =
      lc ("<clinit>") :=
  c6_no_clinit doc2 smC (by decide)
    ((lc ("c"), lc ("m"), lc ("()V")), lc ("method")) (by decide)

end Mapp
